import Mathlib

/-!
Verification of the apple-detection pipeline of `src/app.py`
(`detect_apples`): colour segmentation, mask cleaning, shape
filtering and box annotation.

Modelling conventions:
* An image is a finite 3-channel grid of byte samples; a mask is a
  single-channel grid.  Out-of-bounds reads of a mask yield 0.
* External OpenCV boundary conversions (`cv2.imdecode`,
  `cv2.cvtColor`, `cv2.imencode`) are parameters of the model: the
  theorems hold for every decoder / colour converter / encoder.
* `np.pi` is a double-precision constant in the source; it is modelled
  by its exact rational value 884279719003555 / 2^48.
* Python floats in the filter stage are modelled by exact rationals;
  `cv2.contourArea` and `cv2.arcLength` return non-negative floats,
  modelled by the cell count and the cell-boundary length of a
  connected component (the spec's §3 "area (cell count), perimeter
  (boundary length)" and §9 note that any connected-component
  algorithm with equivalent area/perimeter/bbox results is admissible).
* `int(0.1 * m)` for a non-negative machine number m is modelled as
  `⌊m / 10⌋` with exact arithmetic.
-/

/-- A 3-channel image: width, height and a pixel map giving the three
byte channels at each coordinate. -/
structure Img where
  w : ℕ
  h : ℕ
  px : ℕ → ℕ → ℕ × ℕ × ℕ

/-- A single-channel mask of the same shape; `pix` is 0 outside the
grid. -/
structure Mask where
  w : ℕ
  h : ℕ
  pix : ℕ → ℕ → ℕ

/-- The error raised by `detect_apples`: `raise ValueError("Invalid
image format")` when `cv2.imdecode` returns `None`.  No other error is
raised by the function. -/
inductive DetectError where
  | invalidImageFormat
  deriving DecidableEq, Repr

/-- `cv2.inRange` membership test of one pixel: every channel lies
between the corresponding lower and upper bound (inclusive). -/
def inBand (lo hi p : ℕ × ℕ × ℕ) : Bool :=
  decide (lo.1 ≤ p.1 ∧ p.1 ≤ hi.1 ∧ lo.2.1 ≤ p.2.1 ∧ p.2.1 ≤ hi.2.1 ∧
    lo.2.2 ≤ p.2.2 ∧ p.2.2 ≤ hi.2.2)

/-- `cv2.inRange hsv lo hi`: 255 where the pixel is inside the band,
0 elsewhere (and 0 outside the grid). -/
def inRange (lo hi : ℕ × ℕ × ℕ) (hsv : Img) : Mask :=
  ⟨hsv.w, hsv.h, fun x y =>
    if x < hsv.w ∧ y < hsv.h ∧ inBand lo hi (hsv.px x y) = true then 255 else 0⟩

/-- `cv2.bitwise_or` of two masks (pointwise bitwise or of the byte
values). -/
def bitwiseOr (m1 m2 : Mask) : Mask :=
  ⟨m1.w, m1.h, fun x y => Nat.lor (m1.pix x y) (m2.pix x y)⟩

/-- BORDER_REFLECT_101 index folding used by `cv2.GaussianBlur`
(reflection without repeating the edge sample). -/
def reflect101 (n : ℕ) (i : ℤ) : ℕ :=
  if n ≤ 1 then 0
  else
    let p : ℤ := 2 * (n : ℤ) - 2
    let r : ℤ := i % p
    if r < n then r.toNat else (p - r).toNat

/-- OpenCV's fixed 7-tap Gaussian kernel for ksize 7 and sigma 0
(`small_gaussian_tab`), scaled by 128: [4,14,28,36,28,14,4] / 128. -/
def gk7 (i : ℕ) : ℤ := [4, 14, 28, 36, 28, 14, 4].getD i 0

/-- One output sample of `cv2.GaussianBlur(mask, (7,7), 0)` as the
integer-rounded separable convolution with `gk7`, reflected borders,
saturated to a byte. -/
def blurAt (m : Mask) (x y : ℕ) : ℕ :=
  let s : ℤ :=
    ((List.range 7).map (fun j =>
      ((List.range 7).map (fun i =>
        gk7 i * gk7 j *
          (m.pix (reflect101 m.w ((x : ℤ) + i - 3))
                 (reflect101 m.h ((y : ℤ) + j - 3)) : ℤ))).sum)).sum
  min (((s + 8192) / 16384).toNat) 255

/-- `cv2.GaussianBlur(mask, (7,7), 0)`. -/
def gaussianBlur7 (m : Mask) : Mask :=
  ⟨m.w, m.h, fun x y => if x < m.w ∧ y < m.h then blurAt m x y else 0⟩

/-- The 5×5 neighbourhood values of a mask cell that fall inside the
grid (the `np.ones((5,5))` structuring element; OpenCV morphology
ignores samples outside the image for a constant border). -/
def nbhd5 (m : Mask) (x y : ℕ) : List ℕ :=
  (List.range 5).flatMap (fun (dj : ℕ) =>
    (List.range 5).filterMap (fun (di : ℕ) =>
      let u : ℤ := (x : ℤ) + (di : ℤ) - 2
      let v : ℤ := (y : ℤ) + (dj : ℤ) - 2
      if 0 ≤ u ∧ u < m.w ∧ 0 ≤ v ∧ v < m.h then
        some (m.pix u.toNat v.toNat)
      else none))

/-- `cv2.dilate` with the 5×5 ones kernel: neighbourhood maximum. -/
def dilate5 (m : Mask) : Mask :=
  ⟨m.w, m.h, fun x y =>
    if x < m.w ∧ y < m.h then (nbhd5 m x y).foldr max 0 else 0⟩

/-- `cv2.erode` with the 5×5 ones kernel: neighbourhood minimum. -/
def erode5 (m : Mask) : Mask :=
  ⟨m.w, m.h, fun x y =>
    if x < m.w ∧ y < m.h then (nbhd5 m x y).foldr min 255 else 0⟩

/-- `cv2.morphologyEx(mask, cv2.MORPH_CLOSE, kernel)`: dilate then
erode. -/
def morphClose (m : Mask) : Mask := erode5 (dilate5 m)

/-- `cv2.morphologyEx(mask, cv2.MORPH_OPEN, kernel)`: erode then
dilate. -/
def morphOpen (m : Mask) : Mask := dilate5 (erode5 m)

/-- The foreground cells of a mask (non-zero samples), in row-major
order. -/
def maskCells (m : Mask) : List (ℕ × ℕ) :=
  (List.range m.h).flatMap (fun y =>
    (List.range m.w).filterMap (fun x =>
      if m.pix x y ≠ 0 then some (x, y) else none))

/-- 8-adjacency of two grid cells. -/
def adj8 (a b : ℕ × ℕ) : Bool :=
  decide (a ≠ b ∧ max a.1 b.1 - min a.1 b.1 ≤ 1 ∧ max a.2 b.2 - min a.2 b.2 ≤ 1)

/-- Insert one cell into a list of connected components, merging every
component it touches. -/
def addCell (comps : List (List (ℕ × ℕ))) (c : ℕ × ℕ) : List (List (ℕ × ℕ)) :=
  let touching := comps.filter (fun comp => comp.any (adj8 c))
  let rest := comps.filter (fun comp => ¬ comp.any (adj8 c))
  (c :: touching.flatten) :: rest

/-- The connected components of a mask's foreground.  Models
`cv2.findContours(mask, cv2.RETR_EXTERNAL, cv2.CHAIN_APPROX_SIMPLE)`:
the spec's §9 allows any connected-component extraction with
equivalent area/perimeter/bounding-box results. -/
def components (m : Mask) : List (List (ℕ × ℕ)) :=
  (maskCells m).foldl addCell []

/-- A candidate region as the shape filter sees it: the measured
attributes `cv2.contourArea`, `cv2.arcLength` and
`cv2.boundingRect` of one contour. -/
structure Contour where
  area : ℚ
  perimeter : ℚ
  x : ℕ
  y : ℕ
  w : ℕ
  hgt : ℕ
  deriving DecidableEq, Repr

/-- The four edge-neighbours of a cell (as integer points, so the
left/top neighbours of a border cell fall outside the grid). -/
def edgeNbrs (c : ℕ × ℕ) : List (ℤ × ℤ) :=
  [((c.1 : ℤ) + 1, (c.2 : ℤ)), ((c.1 : ℤ) - 1, (c.2 : ℤ)),
   ((c.1 : ℤ), (c.2 : ℤ) + 1), ((c.1 : ℤ), (c.2 : ℤ) - 1)]

/-- Cell-boundary length of a component: the number of cell sides
shared with a cell outside the component.  Models `cv2.arcLength` per
the spec's "perimeter (boundary length)". -/
def boundaryLength (cells : List (ℕ × ℕ)) : ℕ :=
  (cells.map (fun c =>
    ((edgeNbrs c).filter (fun d =>
      ¬ cells.any (fun e => ((e.1 : ℤ), (e.2 : ℤ)) = d))).length)).sum

/-- Measure one component: area = cell count, perimeter =
cell-boundary length, bounding box from coordinate extrema.  Models
`cv2.contourArea` / `cv2.arcLength` / `cv2.boundingRect` for one
contour. -/
def contourMeasure (cells : List (ℕ × ℕ)) : Contour :=
  match cells with
  | [] => ⟨0, 0, 0, 0, 0, 0⟩
  | c :: cs =>
    let x0 := (cs.map Prod.fst).foldr min c.1
    let x1 := (cs.map Prod.fst).foldr max c.1
    let y0 := (cs.map Prod.snd).foldr min c.2
    let y1 := (cs.map Prod.snd).foldr max c.2
    ⟨((c :: cs).length : ℚ), (boundaryLength (c :: cs) : ℚ),
      x0, y0, x1 + 1 - x0, y1 + 1 - y0⟩

/-- The exact rational value of the IEEE-754 double `np.pi`:
884279719003555 / 2^48. -/
def npPi : ℚ := 884279719003555 / 281474976710656

/-- `circularity = 4*np.pi*area/(perimeter*perimeter) if perimeter > 0
else 0` (line 65 of `src/app.py`). -/
def circularity (c : Contour) : ℚ :=
  if 0 < c.perimeter then 4 * npPi * c.area / (c.perimeter * c.perimeter) else 0

/-- The shape filter of the loop body: a contour survives both
`continue` guards (`area < min_area` and `circularity < 0.6`). -/
def accepts (minArea : ℚ) (c : Contour) : Bool :=
  !decide (c.area < minArea) && !decide (circularity c < 6 / 10)

/-- `padding = int(0.1 * max(w,h))` (line 71): truncation of the exact
product, i.e. `⌊max(w,h)/10⌋`. -/
def padding (bw bh : ℕ) : ℕ := Int.toNat ⌊(max bw bh : ℚ) / 10⌋

/-- The two corner points passed to `cv2.rectangle` for a contour
(line 74–75): top-left clamped at 0, bottom-right unclamped. -/
def boxFor (c : Contour) : (ℤ × ℤ) × (ℤ × ℤ) :=
  let p : ℤ := padding c.w c.hgt
  ((max ((c.x : ℤ) - p) 0, max ((c.y : ℤ) - p) 0),
   ((c.x : ℤ) + c.w + p, (c.y : ℤ) + c.hgt + p))

/-- Whether a pixel lies on the stroked outline (thickness 2) of a
rectangle with the given corners. -/
def onRectBorder (r : (ℤ × ℤ) × (ℤ × ℤ)) (x y : ℕ) : Bool :=
  decide (r.1.1 - 1 ≤ (x : ℤ) ∧ (x : ℤ) ≤ r.2.1 + 1 ∧
    r.1.2 - 1 ≤ (y : ℤ) ∧ (y : ℤ) ≤ r.2.2 + 1 ∧
    ¬ (r.1.1 + 1 < (x : ℤ) ∧ (x : ℤ) < r.2.1 - 1 ∧
       r.1.2 + 1 < (y : ℤ) ∧ (y : ℤ) < r.2.2 - 1))

/-- `cv2.rectangle(img, pt1, pt2, (0,255,0), 2)`: paint the outline
pixels in the highlight colour. -/
def drawRect (img : Img) (r : (ℤ × ℤ) × (ℤ × ℤ)) : Img :=
  ⟨img.w, img.h, fun x y =>
    if onRectBorder r x y then (0, 255, 0) else img.px x y⟩

/-- One iteration of the `for contour in contours` loop (lines 59–77):
skip on either filter, otherwise draw when `draw_boxes` and increment
the count. -/
def step (drawBoxes : Bool) (minArea : ℚ) (st : Img × ℕ) (c : Contour) :
    Img × ℕ :=
  if c.area < minArea then st
  else if circularity c < 6 / 10 then st
  else
    ((if drawBoxes then drawRect st.1 (boxFor c) else st.1), st.2 + 1)

/-- The whole contour loop: starts from (`output_image = image.copy()`,
`apple_count = 0`) and folds `step` over the contour list. -/
def processContours (drawBoxes : Bool) (minArea : ℚ) (img : Img)
    (cs : List Contour) : Img × ℕ :=
  cs.foldl (step drawBoxes minArea) (img, 0)

/-- The contour list the pipeline produces from a decoded image, given
the colour converter: segmentation masks, blur, closing, opening,
contour extraction, measurement. -/
def contoursOf (cvtColor : Img → Img) (image : Img) : List Contour :=
  let hsv := cvtColor image
  let maskRed1 := inRange (0, 50, 50) (10, 255, 255) hsv
  let maskRed2 := inRange (160, 50, 50) (180, 255, 255) hsv
  let maskRed := bitwiseOr maskRed1 maskRed2
  let maskGreen := inRange (30, 40, 40) (90, 255, 255) hsv
  let mask0 := bitwiseOr maskRed maskGreen
  let mask1 := gaussianBlur7 mask0
  let mask2 := morphClose mask1
  let mask3 := morphOpen mask2
  (components mask3).map contourMeasure

/-- `detect_apples(image_bytes, draw_boxes, min_area)` (lines 15–81),
parameterised by the external boundary conversions `cv2.imdecode`,
`cv2.cvtColor(·, COLOR_BGR2HSV)` and `cv2.imencode('.jpg', ·)`. -/
def detect_apples (imdecode : List ℕ → Option Img) (cvtColor : Img → Img)
    (imencode : Img → List ℕ) (imageBytes : List ℕ) (drawBoxes : Bool)
    (minArea : ℚ) : Except DetectError (List ℕ × ℕ) :=
  match imdecode imageBytes with
  | none => .error .invalidImageFormat
  | some image =>
    let contours := contoursOf cvtColor image
    let r := processContours drawBoxes minArea image contours
    .ok (imencode r.1, r.2)

/-! ### Loop lemmas -/

/-- Folding the loop body only ever adds to the count, and the total
added equals the number of contours passing both filters. -/
theorem foldl_step_snd (d : Bool) (ma : ℚ) (cs : List Contour)
    (st : Img × ℕ) :
    (cs.foldl (step d ma) st).2 = st.2 + (cs.filter (accepts ma)).length := by
  induction cs generalizing st with
  | nil => simp
  | cons c cs ih =>
    by_cases h1 : c.area < ma
    · have hacc : accepts ma c = false := by
        simp [accepts, h1]
      simp [List.foldl_cons, step, h1, hacc, ih]
    · by_cases h2 : circularity c < 6 / 10
      · have hacc : accepts ma c = false := by
          simp [accepts, h2]
        simp [List.foldl_cons, step, h1, h2, hacc, ih]
      · have hacc : accepts ma c = true := by
          simp [accepts, h1, h2]
        simp only [List.foldl_cons, step, if_neg h1, if_neg h2]
        rw [ih]
        simp [hacc]
        omega

/-- The count of the contour loop is the number of accepted
contours. -/
theorem processContours_snd (d : Bool) (ma : ℚ) (img : Img)
    (cs : List Contour) :
    (processContours d ma img cs).2 = (cs.filter (accepts ma)).length := by
  simpa using foldl_step_snd d ma cs (img, 0)

/-- With `draw_boxes` false the loop never touches the working
image. -/
theorem foldl_step_fst_false (ma : ℚ) (cs : List Contour) (st : Img × ℕ) :
    (cs.foldl (step false ma) st).1 = st.1 := by
  induction cs generalizing st with
  | nil => rfl
  | cons c cs ih =>
    by_cases h1 : c.area < ma
    · simp [List.foldl_cons, step, h1, ih]
    · by_cases h2 : circularity c < 6 / 10
      · simp [List.foldl_cons, step, h1, h2, ih]
      · simp [List.foldl_cons, step, h1, h2, ih]

/-- Unfolding `detect_apples` on a decodable buffer. -/
theorem detect_apples_eq_ok (imdecode : List ℕ → Option Img)
    (cvtColor : Img → Img) (imencode : Img → List ℕ) (bs : List ℕ)
    (d : Bool) (ma : ℚ) (img : Img) (hdec : imdecode bs = some img) :
    detect_apples imdecode cvtColor imencode bs d ma =
      .ok (imencode (processContours d ma img (contoursOf cvtColor img)).1,
        ((contoursOf cvtColor img).filter (accepts ma)).length) := by
  simp only [detect_apples, hdec]
  rw [processContours_snd]

/-- `accepts` in terms of the spec's acceptance condition. -/
theorem accepts_iff (ma : ℚ) (c : Contour) :
    accepts ma c = true ↔ ma ≤ c.area ∧ 6 / 10 ≤ circularity c := by
  simp [accepts, not_lt]

/-! ### Test fixtures: a concrete decoder / colour converter / encoder
used to instantiate the external boundary conversions in witnesses. -/

/-- A 2×2 all-black test image. -/
def blackImg : Img := ⟨2, 2, fun _ _ => (0, 0, 0)⟩

/-- A test colour converter (identity on the pixel grid). -/
def testCvt : Img → Img := fun i => i

/-- A test encoder. -/
def testEnc : Img → List ℕ := fun i => [i.w, i.h]

/-- A test decoder: fails on the empty buffer, else the black image. -/
def testDecode : List ℕ → Option Img :=
  fun b => if b = [] then none else some blackImg

/-- C1.  For every decodable image and every min_area, a candidate
region is accepted (and counted) iff its area is ≥ min_area and its
circularity 4π·area/perimeter² (0 when perimeter ≤ 0) is ≥ 0.6; the
returned count is the number of accepted regions. -/
theorem c1_accept_iff_and_count (imdecode : List ℕ → Option Img)
    (cvtColor : Img → Img) (imencode : Img → List ℕ) (bs : List ℕ)
    (d : Bool) (ma : ℚ) (img : Img) (c : Contour)
    (hdec : imdecode bs = some img) :
    (detect_apples imdecode cvtColor imencode bs d ma).map Prod.snd =
      .ok ((contoursOf cvtColor img).filter (accepts ma)).length ∧
    (accepts ma c = true ↔ ma ≤ c.area ∧ 6 / 10 ≤ circularity c) := by
  constructor
  · rw [detect_apples_eq_ok imdecode cvtColor imencode bs d ma img hdec]
    rfl
  · exact accepts_iff ma c

/-- Witness for C1 at a concrete decoder, image and contour. -/
theorem c1_accept_iff_and_count_witness :
    (detect_apples testDecode testCvt testEnc [1] true 500).map Prod.snd =
      .ok ((contoursOf testCvt blackImg).filter (accepts 500)).length ∧
    (accepts 500 ⟨100, 10, 0, 0, 12, 12⟩ = true ↔
      (500 : ℚ) ≤ 100 ∧ 6 / 10 ≤ circularity ⟨100, 10, 0, 0, 12, 12⟩) :=
  c1_accept_iff_and_count testDecode testCvt testEnc [1] true 500 blackImg
    ⟨100, 10, 0, 0, 12, 12⟩ rfl

/-! ### Padding lemmas -/

/-- The truncated padding as a natural division. -/
theorem padding_eq_div (bw bh : ℕ) : padding bw bh = max bw bh / 10 := by
  unfold padding
  rw [← Nat.cast_max, show ((10 : ℚ)) = ((10 : ℕ) : ℚ) by norm_num,
    Int.floor_toNat, Nat.floor_div_eq_div]

/-- What the spec prescribes instead: `round(0.1 * max(w,h))`. -/
def paddingSpec (bw bh : ℕ) : ℕ :=
  Int.toNat (round ((max bw bh : ℚ) / 10))

/-- The rounded padding as a natural division. -/
theorem paddingSpec_eq_div (bw bh : ℕ) :
    paddingSpec bw bh = (max bw bh + 5) / 10 := by
  unfold paddingSpec
  rw [round_eq]
  have h : max (bw : ℚ) (bh : ℚ) / 10 + 1 / 2 =
      ((max bw bh + 5 : ℕ) : ℚ) / 10 := by
    push_cast
    ring
  rw [h, show ((10 : ℚ)) = ((10 : ℕ) : ℚ) by norm_num, Int.floor_toNat,
    Nat.floor_div_eq_div]

/-- C3 counterexample: for a bounding box with max(w,h) = 15 the code
adds padding `int(0.1*15) = 1`, while `round(0.1*15) = 2`. -/
theorem c3_round_counterexample :
    padding 15 10 = 1 ∧ paddingSpec 15 10 = 2 ∧
      padding 15 10 ≠ paddingSpec 15 10 := by
  rw [padding_eq_div, paddingSpec_eq_div]
  norm_num

/-- C3 (amended).  The padding added around an accepted region's box
is `int(0.1 × max(w,h))`, i.e. the truncation ⌊max(w,h)/10⌋, not the
rounding; truncation and rounding agree exactly when
max(w,h) mod 10 < 5. -/
theorem c3_padding_truncates (bw bh : ℕ) :
    padding bw bh = max bw bh / 10 ∧
    (padding bw bh = paddingSpec bw bh ↔ max bw bh % 10 < 5) := by
  refine ⟨padding_eq_div bw bh, ?_⟩
  rw [padding_eq_div, paddingSpec_eq_div]
  omega

/-- C2 counterexample: a call with `min_area = -1` does not fail (it
returns a result), so no `InvalidParameter` rejection exists in the
code. -/
theorem c2_counterexample :
    detect_apples testDecode testCvt testEnc [1] true (-1) ≠
      Except.error DetectError.invalidImageFormat := by
  rw [detect_apples_eq_ok testDecode testCvt testEnc [1] true (-1) blackImg rfl]
  simp

/-- C2 (amended).  `detect_apples` performs no validation of
`min_area`: with a negative `min_area` the call raises no error and
completes with a full result (the size filter then discards
nothing). -/
theorem c2_no_min_area_validation (imdecode : List ℕ → Option Img)
    (cvtColor : Img → Img) (imencode : Img → List ℕ) (bs : List ℕ)
    (d : Bool) (ma : ℚ) (img : Img) (_hma : ma < 0)
    (hdec : imdecode bs = some img) :
    detect_apples imdecode cvtColor imencode bs d ma =
      .ok (imencode (processContours d ma img (contoursOf cvtColor img)).1,
        ((contoursOf cvtColor img).filter (accepts ma)).length) :=
  detect_apples_eq_ok imdecode cvtColor imencode bs d ma img hdec

/-- Witness for the amended C2 at `min_area = -1`. -/
theorem c2_no_min_area_validation_witness :
    detect_apples testDecode testCvt testEnc [1] true (-1) =
      .ok (testEnc
          (processContours true (-1) blackImg (contoursOf testCvt blackImg)).1,
        ((contoursOf testCvt blackImg).filter (accepts (-1))).length) :=
  c2_no_min_area_validation testDecode testCvt testEnc [1] true (-1) blackImg
    (by norm_num) rfl

/-- C4.  The `draw_boxes` flag never influences the returned count. -/
theorem c4_draw_boxes_count_invariant (imdecode : List ℕ → Option Img)
    (cvtColor : Img → Img) (imencode : Img → List ℕ) (bs : List ℕ)
    (ma : ℚ) :
    (detect_apples imdecode cvtColor imencode bs true ma).map Prod.snd =
      (detect_apples imdecode cvtColor imencode bs false ma).map Prod.snd := by
  cases hdec : imdecode bs with
  | none => simp [detect_apples, hdec]
  | some img =>
    rw [detect_apples_eq_ok imdecode cvtColor imencode bs true ma img hdec,
      detect_apples_eq_ok imdecode cvtColor imencode bs false ma img hdec]
    simp [Except.map]

/-- C5.  The rectangle passed to `cv2.rectangle` for an accepted
region is clamped at 0 on the top-left corner and unclamped on the
bottom-right corner, which can therefore exceed the image bounds even
for a region lying inside them. -/
theorem c5_box_clamping (c : Contour) :
    (boxFor c).1.1 = max ((c.x : ℤ) - padding c.w c.hgt) 0 ∧
    (boxFor c).1.2 = max ((c.y : ℤ) - padding c.w c.hgt) 0 ∧
    0 ≤ (boxFor c).1.1 ∧ 0 ≤ (boxFor c).1.2 ∧
    (boxFor c).2.1 = (c.x : ℤ) + c.w + padding c.w c.hgt ∧
    (boxFor c).2.2 = (c.y : ℤ) + c.hgt + padding c.w c.hgt ∧
    ∃ (c' : Contour) (bigW bigH : ℕ), c'.x + c'.w ≤ bigW ∧
      c'.y + c'.hgt ≤ bigH ∧ (bigW : ℤ) < (boxFor c').2.1 ∧
      (bigH : ℤ) < (boxFor c').2.2 := by
  refine ⟨rfl, rfl, le_max_right _ _, le_max_right _ _, rfl, rfl,
    ⟨100, 40, 0, 0, 10, 10⟩, 10, 10, by norm_num, by norm_num, ?_, ?_⟩
  · have hp : padding 10 10 = 1 := by
      rw [padding_eq_div]
      decide
    simp [boxFor, hp]
  · have hp : padding 10 10 = 1 := by
      rw [padding_eq_div]
      decide
    simp [boxFor, hp]

/-! ### Monotonicity in `min_area` -/

/-- Acceptance is antitone in the size threshold. -/
theorem accepts_mono_min_area (ma1 ma2 : ℚ) (h : ma1 ≤ ma2) (c : Contour)
    (hc : accepts ma2 c = true) : accepts ma1 c = true := by
  rw [accepts_iff] at hc ⊢
  exact ⟨le_trans h hc.1, hc.2⟩

/-- A pointwise-stronger filter keeps at most as many elements. -/
theorem filter_length_mono {α : Type} (p q : α → Bool)
    (h : ∀ a, p a = true → q a = true) (l : List α) :
    (l.filter p).length ≤ (l.filter q).length := by
  induction l with
  | nil => simp
  | cons a l ih =>
    by_cases hp : p a = true
    · simp [List.filter_cons, hp, h a hp]
      omega
    · by_cases hq : q a = true
      · simp [List.filter_cons, hp, hq]
        omega
      · simp [List.filter_cons, hp, hq]
        omega

/-- The count returned in a detection result (0 on failure). -/
def countResult : Except DetectError (List ℕ × ℕ) → ℕ
  | .ok r => r.2
  | .error _ => 0

/-- C6.  With everything else fixed, the returned count is
non-increasing in `min_area`, and raising `min_area` strictly above a
region's area removes that region from acceptance. -/
theorem c6_count_antitone_min_area (imdecode : List ℕ → Option Img)
    (cvtColor : Img → Img) (imencode : Img → List ℕ) (bs : List ℕ)
    (d : Bool) (ma1 ma2 : ℚ) (img : Img) (c : Contour)
    (hdec : imdecode bs = some img) (hle : ma1 ≤ ma2)
    (hc : c.area < ma2) :
    countResult (detect_apples imdecode cvtColor imencode bs d ma2) ≤
      countResult (detect_apples imdecode cvtColor imencode bs d ma1) ∧
    accepts ma2 c = false := by
  constructor
  · rw [detect_apples_eq_ok imdecode cvtColor imencode bs d ma2 img hdec,
      detect_apples_eq_ok imdecode cvtColor imencode bs d ma1 img hdec]
    exact filter_length_mono _ _ (accepts_mono_min_area ma1 ma2 hle) _
  · simp [accepts, hc]

/-- Witness for C6: thresholds 1 ≤ 5 and a region of area 1 < 5. -/
theorem c6_count_antitone_min_area_witness :
    countResult (detect_apples testDecode testCvt testEnc [1] true 5) ≤
      countResult (detect_apples testDecode testCvt testEnc [1] true 1) ∧
    accepts 5 ⟨1, 10, 0, 0, 2, 2⟩ = false :=
  c6_count_antitone_min_area testDecode testCvt testEnc [1] true 1 5 blackImg
    ⟨1, 10, 0, 0, 2, 2⟩ rfl (by norm_num) (by norm_num)

/-- C7.  `detect_apples` fails with the invalid-image error exactly
when the byte buffer does not decode; in that case no result is
produced, and for every decodable buffer this error is never
raised. -/
theorem c7_invalid_image_format_iff (imdecode : List ℕ → Option Img)
    (cvtColor : Img → Img) (imencode : Img → List ℕ) (bs : List ℕ)
    (d : Bool) (ma : ℚ) :
    detect_apples imdecode cvtColor imencode bs d ma =
      Except.error DetectError.invalidImageFormat ↔ imdecode bs = none := by
  cases hdec : imdecode bs with
  | none => simp [detect_apples, hdec]
  | some img =>
    rw [detect_apples_eq_ok imdecode cvtColor imencode bs d ma img hdec]
    simp

/-! ### Non-positive `min_area` -/

/-- Every contour the pipeline measures has non-negative area (it is a
cell count). -/
theorem contourMeasure_area_nonneg (cells : List (ℕ × ℕ)) :
    0 ≤ (contourMeasure cells).area := by
  cases cells with
  | nil => simp [contourMeasure]
  | cons c cs =>
    simp [contourMeasure]
    positivity

/-- Areas coming out of the pipeline are non-negative. -/
theorem contoursOf_area_nonneg (cvtColor : Img → Img) (img : Img) :
    ∀ c ∈ contoursOf cvtColor img, 0 ≤ c.area := by
  intro c hc
  simp only [contoursOf] at hc
  obtain ⟨cells, _, rfl⟩ := List.mem_map.mp hc
  exact contourMeasure_area_nonneg cells

/-- The loop body is the same under any non-positive threshold as
under 0, for a contour of non-negative area. -/
theorem step_nonpos_eq (d : Bool) (ma : ℚ) (hma : ma ≤ 0) (st : Img × ℕ)
    (c : Contour) (hc : 0 ≤ c.area) : step d ma st c = step d 0 st c := by
  have h1 : ¬ c.area < ma := not_lt.mpr (le_trans hma hc)
  have h2 : ¬ c.area < 0 := not_lt.mpr hc
  simp [step, h1, h2]

/-- Folding the loop under any non-positive threshold equals folding
under 0. -/
theorem foldl_step_nonpos (d : Bool) (ma : ℚ) (hma : ma ≤ 0)
    (cs : List Contour) (h : ∀ c ∈ cs, 0 ≤ c.area) (st : Img × ℕ) :
    cs.foldl (step d ma) st = cs.foldl (step d 0) st := by
  induction cs generalizing st with
  | nil => rfl
  | cons c cs ih =>
    rw [List.foldl_cons, List.foldl_cons,
      step_nonpos_eq d ma hma st c (h c (List.mem_cons_self c cs))]
    exact ih (fun c' hc' => h c' (List.mem_cons_of_mem c hc')) _

/-- C10.  A non-positive `min_area` raises no error, the size filter
discards nothing (only the shape filter remains), and the whole result
equals the one for `min_area = 0`. -/
theorem c10_nonpositive_min_area (imdecode : List ℕ → Option Img)
    (cvtColor : Img → Img) (imencode : Img → List ℕ) (bs : List ℕ)
    (d : Bool) (ma : ℚ) (img : Img) (hdec : imdecode bs = some img)
    (hma : ma ≤ 0) :
    detect_apples imdecode cvtColor imencode bs d ma =
      detect_apples imdecode cvtColor imencode bs d 0 ∧
    detect_apples imdecode cvtColor imencode bs d ma ≠
      Except.error DetectError.invalidImageFormat ∧
    (contoursOf cvtColor img).filter (accepts ma) =
      (contoursOf cvtColor img).filter
        (fun c => !decide (circularity c < 6 / 10)) := by
  have hA := contoursOf_area_nonneg cvtColor img
  refine ⟨?_, ?_, ?_⟩
  · rw [detect_apples_eq_ok imdecode cvtColor imencode bs d ma img hdec,
      detect_apples_eq_ok imdecode cvtColor imencode bs d 0 img hdec]
    have hP : processContours d ma img (contoursOf cvtColor img) =
        processContours d 0 img (contoursOf cvtColor img) :=
      foldl_step_nonpos d ma hma _ hA _
    have hF : (contoursOf cvtColor img).filter (accepts ma) =
        (contoursOf cvtColor img).filter (accepts 0) := by
      apply List.filter_congr
      intro c hc
      have h1 : ¬ c.area < ma := not_lt.mpr (le_trans hma (hA c hc))
      have h2 : ¬ c.area < 0 := not_lt.mpr (hA c hc)
      simp [accepts, h1, h2]
    rw [hP, hF]
  · rw [detect_apples_eq_ok imdecode cvtColor imencode bs d ma img hdec]
    simp
  · apply List.filter_congr
    intro c hc
    have h1 : ¬ c.area < ma := not_lt.mpr (le_trans hma (hA c hc))
    simp [accepts, h1]

/-- Witness for C10 at `min_area = -5`. -/
theorem c10_nonpositive_min_area_witness :
    detect_apples testDecode testCvt testEnc [1] true (-5) =
      detect_apples testDecode testCvt testEnc [1] true 0 ∧
    detect_apples testDecode testCvt testEnc [1] true (-5) ≠
      Except.error DetectError.invalidImageFormat ∧
    (contoursOf testCvt blackImg).filter (accepts (-5)) =
      (contoursOf testCvt blackImg).filter
        (fun c => !decide (circularity c < 6 / 10)) :=
  c10_nonpositive_min_area testDecode testCvt testEnc [1] true (-5) blackImg
    rfl (by norm_num)

/-- C9.  With `draw_boxes` false the loop never writes into the
working copy, so the returned bytes are a plain re-encoding of the
decoded input, whatever the region count is. -/
theorem c9_no_draw_plain_copy (imdecode : List ℕ → Option Img)
    (cvtColor : Img → Img) (imencode : Img → List ℕ) (bs : List ℕ)
    (ma : ℚ) (img : Img) (hdec : imdecode bs = some img) :
    detect_apples imdecode cvtColor imencode bs false ma =
      .ok (imencode img,
        ((contoursOf cvtColor img).filter (accepts ma)).length) := by
  rw [detect_apples_eq_ok imdecode cvtColor imencode bs false ma img hdec]
  unfold processContours
  rw [foldl_step_fst_false ma (contoursOf cvtColor img) (img, 0)]

/-- Witness for C9 at a concrete decoder and image. -/
theorem c9_no_draw_plain_copy_witness :
    detect_apples testDecode testCvt testEnc [1] false 500 =
      .ok (testEnc blackImg,
        ((contoursOf testCvt blackImg).filter (accepts 500)).length) :=
  c9_no_draw_plain_copy testDecode testCvt testEnc [1] 500 blackImg rfl

/-! ### The all-background chain for C8 -/

/-- A pixel matches the colour segmentation iff it lies in one of the
three bands of lines 27–40: red band A, red band B or the green
band. -/
def inAnyBand (p : ℕ × ℕ × ℕ) : Bool :=
  inBand (0, 50, 50) (10, 255, 255) p ||
    inBand (160, 50, 50) (180, 255, 255) p ||
    inBand (30, 40, 40) (90, 255, 255) p

/-- An `inRange` mask sample is 0 wherever the pixel misses the
band. -/
theorem inRange_pix_zero (lo hi : ℕ × ℕ × ℕ) (hsv : Img) (x y : ℕ)
    (h : x < hsv.w → y < hsv.h → inBand lo hi (hsv.px x y) = false) :
    (inRange lo hi hsv).pix x y = 0 := by
  simp only [inRange]
  rw [if_neg]
  rintro ⟨hx, hy, hband⟩
  rw [h hx hy] at hband
  exact Bool.false_ne_true hband

/-- `bitwise_or` of two zero samples is zero. -/
theorem bitwiseOr_pix_zero (m1 m2 : Mask) (x y : ℕ)
    (h1 : m1.pix x y = 0) (h2 : m2.pix x y = 0) :
    (bitwiseOr m1 m2).pix x y = 0 := by
  simp only [bitwiseOr, h1, h2]
  decide

/-- A sum of all-zero integers is zero. -/
theorem list_sum_zero (l : List ℤ) (h : ∀ a ∈ l, a = 0) : l.sum = 0 := by
  induction l with
  | nil => rfl
  | cons a l ih =>
    rw [List.sum_cons, h a (List.mem_cons_self a l),
      ih (fun b hb => h b (List.mem_cons_of_mem a hb))]
    decide

/-- Blurring an all-zero mask gives zero samples. -/
theorem blurAt_zero (m : Mask) (hm : ∀ x y, m.pix x y = 0) (x y : ℕ) :
    blurAt m x y = 0 := by
  simp only [blurAt]
  have houter : ((List.range 7).map (fun j =>
      ((List.range 7).map (fun i =>
        gk7 i * gk7 j *
          (m.pix (reflect101 m.w ((x : ℤ) + i - 3))
                 (reflect101 m.h ((y : ℤ) + j - 3)) : ℤ))).sum)).sum = 0 := by
    apply list_sum_zero
    intro a ha
    obtain ⟨j, _, rfl⟩ := List.mem_map.mp ha
    apply list_sum_zero
    intro b hb
    obtain ⟨i, _, rfl⟩ := List.mem_map.mp hb
    rw [hm]
    simp
  rw [houter]
  decide

/-- The blurred mask of an all-zero mask is all zero. -/
theorem gaussianBlur7_pix_zero (m : Mask) (hm : ∀ x y, m.pix x y = 0) :
    ∀ x y, (gaussianBlur7 m).pix x y = 0 := by
  intro x y
  simp only [gaussianBlur7]
  by_cases h : x < m.w ∧ y < m.h
  · rw [if_pos h]
    exact blurAt_zero m hm x y
  · rw [if_neg h]

/-- All neighbourhood samples of an all-zero mask are zero. -/
theorem nbhd5_all_zero (m : Mask) (hm : ∀ x y, m.pix x y = 0) (x y : ℕ) :
    ∀ a ∈ nbhd5 m x y, a = 0 := by
  intro a ha
  simp only [nbhd5, List.mem_flatMap, List.mem_filterMap] at ha
  obtain ⟨dj, _, di, _, hdi⟩ := ha
  split at hdi
  · have h' := Option.some.inj hdi
    subst h'
    exact hm _ _
  · exact absurd hdi (by simp)

/-- The centre sample belongs to the 5×5 neighbourhood of an in-bounds
cell. -/
theorem center_mem_nbhd5 (m : Mask) (x y : ℕ) (hx : x < m.w)
    (hy : y < m.h) : m.pix x y ∈ nbhd5 m x y := by
  unfold nbhd5
  apply List.mem_flatMap.mpr
  refine ⟨2, by simp, ?_⟩
  apply List.mem_filterMap.mpr
  refine ⟨2, by simp, ?_⟩
  have hx' : ((x : ℤ) + ((2 : ℕ) : ℤ) - 2) = (x : ℤ) := by push_cast; ring
  have hy' : ((y : ℤ) + ((2 : ℕ) : ℤ) - 2) = (y : ℤ) := by push_cast; ring
  simp only [hx', hy']
  rw [if_pos]
  · simp
  · refine ⟨Int.natCast_nonneg x, ?_, Int.natCast_nonneg y, ?_⟩
    · exact_mod_cast hx
    · exact_mod_cast hy

/-- A max-fold over all-zero samples is zero. -/
theorem foldr_max_zero (l : List ℕ) (h : ∀ a ∈ l, a = 0) :
    l.foldr max 0 = 0 := by
  induction l with
  | nil => rfl
  | cons a l ih =>
    rw [List.foldr_cons, h a (List.mem_cons_self a l),
      ih (fun b hb => h b (List.mem_cons_of_mem a hb))]
    decide

/-- A min-fold over a non-empty list of all-zero samples is zero. -/
theorem foldr_min_zero (l : List ℕ) (h : ∀ a ∈ l, a = 0) (hne : l ≠ []) :
    l.foldr min 255 = 0 := by
  cases l with
  | nil => exact absurd rfl hne
  | cons a l =>
    rw [List.foldr_cons, h a (List.mem_cons_self a l)]
    cases l with
    | nil => rfl
    | cons b l' =>
      rw [foldr_min_zero (b :: l')
        (fun c hc => h c (List.mem_cons_of_mem a hc)) (by simp)]
      decide

/-- Dilating an all-zero mask gives an all-zero mask. -/
theorem dilate5_pix_zero (m : Mask) (hm : ∀ x y, m.pix x y = 0) :
    ∀ x y, (dilate5 m).pix x y = 0 := by
  intro x y
  simp only [dilate5]
  by_cases h : x < m.w ∧ y < m.h
  · rw [if_pos h]
    exact foldr_max_zero _ (nbhd5_all_zero m hm x y)
  · rw [if_neg h]

/-- Eroding an all-zero mask gives an all-zero mask. -/
theorem erode5_pix_zero (m : Mask) (hm : ∀ x y, m.pix x y = 0) :
    ∀ x y, (erode5 m).pix x y = 0 := by
  intro x y
  simp only [erode5]
  by_cases h : x < m.w ∧ y < m.h
  · rw [if_pos h]
    exact foldr_min_zero _ (nbhd5_all_zero m hm x y)
      (List.ne_nil_of_mem (center_mem_nbhd5 m x y h.1 h.2))
  · rw [if_neg h]

/-- An all-zero mask has no foreground cells. -/
theorem maskCells_eq_nil (m : Mask) (hm : ∀ x y, m.pix x y = 0) :
    maskCells m = [] := by
  unfold maskCells
  apply List.flatMap_eq_nil_iff.mpr
  intro y _
  apply List.filterMap_eq_nil_iff.mpr
  intro x _
  rw [if_neg]
  simp [hm]

/-- An all-zero mask has no connected components. -/
theorem components_eq_nil (m : Mask) (hm : ∀ x y, m.pix x y = 0) :
    components m = [] := by
  unfold components
  rw [maskCells_eq_nil m hm]
  rfl

/-- When no pixel of the converted image falls in any colour band, the
pipeline produces no contours at all. -/
theorem contoursOf_eq_nil (cvtColor : Img → Img) (img : Img)
    (hb : ∀ x y, x < (cvtColor img).w → y < (cvtColor img).h →
      inAnyBand ((cvtColor img).px x y) = false) :
    contoursOf cvtColor img = [] := by
  have hband : ∀ lo hi, (inBand lo hi = inBand (0, 50, 50) (10, 255, 255) ∨
      inBand lo hi = inBand (160, 50, 50) (180, 255, 255) ∨
      inBand lo hi = inBand (30, 40, 40) (90, 255, 255)) →
      ∀ x y, (inRange lo hi (cvtColor img)).pix x y = 0 := by
    intro lo hi hcase x y
    apply inRange_pix_zero
    intro hx hy
    have h0 := hb x y hx hy
    simp only [inAnyBand, Bool.or_eq_false_iff] at h0
    rcases hcase with h | h | h <;> rw [h]
    · exact h0.1.1
    · exact h0.1.2
    · exact h0.2
  have h0 : ∀ x y,
      (bitwiseOr
        (bitwiseOr (inRange (0, 50, 50) (10, 255, 255) (cvtColor img))
          (inRange (160, 50, 50) (180, 255, 255) (cvtColor img)))
        (inRange (30, 40, 40) (90, 255, 255) (cvtColor img))).pix x y = 0 := by
    intro x y
    apply bitwiseOr_pix_zero
    · apply bitwiseOr_pix_zero
      · exact hband _ _ (Or.inl rfl) x y
      · exact hband _ _ (Or.inr (Or.inl rfl)) x y
    · exact hband _ _ (Or.inr (Or.inr rfl)) x y
  have h1 := gaussianBlur7_pix_zero _ h0
  have h2 := dilate5_pix_zero _ h1
  have h3 := erode5_pix_zero _ h2
  have h4 := erode5_pix_zero _ h3
  have h5 := dilate5_pix_zero _ h4
  show (components (morphOpen (morphClose (gaussianBlur7
      (bitwiseOr
        (bitwiseOr (inRange (0, 50, 50) (10, 255, 255) (cvtColor img))
          (inRange (160, 50, 50) (180, 255, 255) (cvtColor img)))
        (inRange (30, 40, 40) (90, 255, 255) (cvtColor img))))))).map
      contourMeasure = []
  rw [components_eq_nil (morphOpen (morphClose (gaussianBlur7
      (bitwiseOr
        (bitwiseOr (inRange (0, 50, 50) (10, 255, 255) (cvtColor img))
          (inRange (160, 50, 50) (180, 255, 255) (cvtColor img)))
        (inRange (30, 40, 40) (90, 255, 255) (cvtColor img)))))) h5]
  rfl

/-- C8.  For a decodable image none of whose pixels falls in any of
the three colour bands, the count is 0 and the returned bytes are the
input re-encoded with no rectangle drawn, even with `draw_boxes`
true. -/
theorem c8_no_band_pixels_zero_count (imdecode : List ℕ → Option Img)
    (cvtColor : Img → Img) (imencode : Img → List ℕ) (bs : List ℕ)
    (ma : ℚ) (img : Img) (hdec : imdecode bs = some img)
    (hb : ∀ x y, x < (cvtColor img).w → y < (cvtColor img).h →
      inAnyBand ((cvtColor img).px x y) = false) :
    detect_apples imdecode cvtColor imencode bs true ma =
      .ok (imencode img, 0) := by
  rw [detect_apples_eq_ok imdecode cvtColor imencode bs true ma img hdec,
    contoursOf_eq_nil cvtColor img hb]
  rfl

/-- Witness for C8 at the all-black test image. -/
theorem c8_no_band_pixels_zero_count_witness :
    detect_apples testDecode testCvt testEnc [1] true 500 =
      .ok (testEnc blackImg, 0) :=
  c8_no_band_pixels_zero_count testDecode testCvt testEnc [1] 500 blackImg
    rfl (fun _ _ _ _ => rfl)
